import Mathlib

/-!
Shallow embedding of `demo_dpm.py`: a Dirichlet-process binary mixture model
Gibbs sampler (Neal's Algorithm 3) consisting of a concentration-parameter
update (`sample_alpha`), a per-observation collapsed cluster-assignment update
(`sample_c`), the sweep composing them (`transition`), the forward prior
sampler (`sample_latent`) and the Geweke data-resampling step (`sample_data`).

Numeric conventions: the Python floats carrying exact rational data (labels,
counts, pseudo-counts, grid points, uniform variates) are embedded as `ℚ`/`ℤ`;
the transcendental primitives (`log`, `betaln`, `gammaln`, `gamma.logpdf`) and
the values built from them (log-weights) are embedded relative to an abstract
context `MathCtx R`, which theorems may instantiate at `R := ℝ` with the
genuine functions.  The injected random source is embedded as positional
streams of variates plus an abstract log-mode categorical draw.  Python code
paths that raise (out-of-range indexing, degenerate weight vectors) are
embedded as `Option` with `none` for the raise.
-/

/-- The hyperparameter bundle read from `params`. -/
structure Params where
  alpha_shape : ℚ
  alpha_scale : ℚ
  beta : ℚ
deriving DecidableEq

/-- The Markov chain state (class `State` of the source): the DPM concentration
parameter `alpha` and the cluster-label vector `c`. -/
structure ChainState where
  alpha : ℚ
  c : List ℤ
deriving DecidableEq

/-- The transcendental primitives the code calls (`numpy.log`,
`scipy.special.betaln`, `scipy.special.gammaln`, `scipy.stats.gamma.logpdf`
as a function of `(x, shape, scale)`), abstracted as a context. -/
structure MathCtx (R : Type) where
  log : ℚ → R
  betaln : ℚ → ℚ → R
  gammaln : ℚ → R
  gammaLogpdf : ℚ → ℚ → ℚ → R

/-- The injected random source: the gamma variate used by `sample_latent`,
positional streams of uniform and Beta variates, and the log-mode categorical
draw of `helpers.discrete_sample`, abstracted as a choice function indexed by
the time at which the draw is consumed. -/
structure Rng (R : Type) where
  gammaVal : ℚ
  unif : ℕ → ℚ
  betaDraw : ℕ → ℚ
  pickLog : ℕ → List R → ℕ

/-- Insert `x` into a sorted duplicate-free list, keeping it sorted and
duplicate-free. -/
def insortUniq (x : ℤ) : List ℤ → List ℤ
  | [] => [x]
  | y :: ys =>
    if x < y then x :: y :: ys else if x = y then y :: ys else y :: insortUniq x ys

/-- `numpy.unique`: the sorted list of the distinct values of `l`. -/
def sortedDedup (l : List ℤ) : List ℤ := l.foldr insortUniq []

/-- `len(unique(l))`: the number of distinct values of `l`. -/
def nDistinct (l : List ℤ) : ℕ := (sortedDedup l).length

/-- The rows `data[j]` with `c[j] = lab` and `j ≠ i`: the mask `c_in` built on
lines 105-106 of `sample_c`. -/
def memberRows (data : List (List Bool)) (c : List ℤ) (i : ℕ) (lab : ℤ) :
    List (List Bool) :=
  ((data.zip c).enum.filter fun q => decide (q.2.2 = lab) && decide (q.1 ≠ i)).map
    fun q => q.2.1

/-- Column `d` of `sum(rows == True, 0)`: how many rows have `True` at `d`. -/
def countTrue (rows : List (List Bool)) (d : ℕ) : ℕ :=
  rows.countP fun r => r.getD d false

/-- Column `d` of `sum(rows == False, 0)`: how many rows have `False` at `d`. -/
def countFalse (rows : List (List Bool)) (d : ℕ) : ℕ :=
  rows.countP fun r => !r.getD d false

/-- Sum of `f` over the feature dimensions `0, …, dim-1`. -/
def dimSum {R : Type} [AddCommMonoid R] (dim : ℕ) (f : ℕ → R) : R :=
  ((List.range dim).map f).sum

/-- The loop of `sample_c` over the existing clusters (lines 102-110): for each
cluster, the log-weight `log(count) + Σ_d (betaln(a_d + x_d, b_d + (1 - x_d)) -
betaln(a_d, b_d))`.  The running vector `bv` is the Python variable `beta`: the
code reassigns it on line 108, so each cluster after the first starts from the
previous cluster's posterior `b` rather than from the prior, and the final
value is returned as well because line 112 reads it. -/
def clusterWeights {R : Type} [CommRing R] (ctx : MathCtx R) (c_diff : List ℤ)
    (mem : ℤ → List (List Bool)) (x : ℕ → ℚ) (dim : ℕ) :
    (ℕ → ℚ) → List ℤ → List R × (ℕ → ℚ)
  | bv, [] => ([], bv)
  | bv, lab :: rest =>
    let a : ℕ → ℚ := fun d => bv d + countTrue (mem lab) d
    let b : ℕ → ℚ := fun d => bv d + countFalse (mem lab) d
    let w : R := ctx.log (c_diff.count lab : ℚ) +
      dimSum dim fun d =>
        ctx.betaln (a d + x d) (b d + (1 - x d)) - ctx.betaln (a d) (b d)
    let res := clusterWeights ctx c_diff mem x dim b rest
    (w :: res.1, res.2)

/-- The log-weight vector `p` assembled by `sample_c` (lines 94-113): one entry
per existing cluster, then the new-cluster entry `log(dp_alpha) +
Σ_d (betaln(bv_d + x_d, bv_d - x_d + 1) - betaln(bv_d, bv_d))` evaluated at the
final running `beta` vector. -/
def sample_c_weights {R : Type} [CommRing R] (ctx : MathCtx R) (i : ℕ)
    (c : List ℤ) (data : List (List Bool)) (dp_alpha beta : ℚ) : List R :=
  let c_diff := c.eraseIdx i
  let cluster_ids := sortedDedup c_diff
  let xrow := data.getD i []
  let x : ℕ → ℚ := fun d => if xrow.getD d false then 1 else 0
  let dim := xrow.length
  let res := clusterWeights ctx c_diff (memberRows data c i) x dim (fun _ => beta)
    cluster_ids
  res.1 ++ [ctx.log dp_alpha +
    dimSum dim fun d =>
      ctx.betaln (res.2 d + x d) (res.2 d - x d + 1) - ctx.betaln (res.2 d) (res.2 d)]

/-- `BinoChain.sample_c` (lines 93-125): draw an index from the log-weights;
the last index means a new cluster labelled `cluster_ids[-1] + 1`, any other
index the corresponding entry of the sorted distinct labels.  `none` embeds the
`IndexError` the Python raises when `cluster_ids` is empty or the index is out
of range. -/
def sample_c {R : Type} [CommRing R] (ctx : MathCtx R) (i : ℕ) (c : List ℤ)
    (data : List (List Bool)) (dp_alpha beta : ℚ) (pick : List R → ℕ) : Option ℤ :=
  let p := sample_c_weights ctx i c data dp_alpha beta
  let cluster_ids := sortedDedup (c.eraseIdx i)
  let idx := pick p
  if idx = p.length - 1 then cluster_ids.getLast?.map (· + 1)
  else cluster_ids[idx]?

/-- `linspace(.1, 10, 1000)`: the fixed grid of `sample_alpha`. -/
def alphaGrid : List ℚ :=
  (List.range 1000).map fun i : ℕ => (1 / 10 : ℚ) + (i : ℚ) * ((10 - 1 / 10) / 999)

/-- `calc_alpha_llh` (lines 83-86): the unnormalized log-density of `alpha`. -/
def calc_alpha_llh {R : Type} [CommRing R] (ctx : MathCtx R) (params : Params)
    (n_clusters n : ℕ) (alpha : ℚ) : R :=
  ctx.gammaLogpdf alpha params.alpha_shape params.alpha_scale +
    (ctx.gammaln alpha + (n_clusters : R) * ctx.log alpha - ctx.gammaln (alpha + n))

/-- `BinoChain.sample_alpha` (lines 80-91): evaluate the log-density on the
grid, draw a grid index in log mode, return that grid point. -/
def sample_alpha {R : Type} [CommRing R] (ctx : MathCtx R) (state : ChainState)
    (params : Params) (n : ℕ) (rng : Rng R) : Option ℚ :=
  let n_clusters := nDistinct state.c
  let alpha_llh := alphaGrid.map (calc_alpha_llh ctx params n_clusters n)
  alphaGrid[rng.pickLog 0 alpha_llh]?

/-- `BinoChain.transition` (lines 36-44): sample the new `alpha` from the
current state, copy `c`, then for `i = 0, …, n-1` overwrite `c[i]` with the
assignment update, threading the partially updated vector.  The draw at sweep
position `i` consumes the random source at time `i + 1` (the `alpha` draw
consumed time `0`). -/
def transition {R : Type} [CommRing R] (ctx : MathCtx R) (state : ChainState)
    (params : Params) (data : List (List Bool)) (rng : Rng R) : Option ChainState :=
  let n := data.length
  match sample_alpha ctx state params n rng with
  | none => none
  | some a =>
    ((List.range n).foldl
        (fun oc i => oc.bind fun c =>
          (sample_c ctx i c data a params.beta (rng.pickLog (i + 1))).map fun r =>
            c.set i r)
        (some state.c)).map
      fun c => ChainState.mk a c

/-- Smallest index (offset by the partial sum `acc`) whose cumulative sum
strictly exceeds `u`. -/
def cumFindIdx (u : ℚ) : List ℚ → ℚ → Option ℕ
  | [], _ => none
  | q :: qs, acc =>
    if u < acc + q then some 0 else (cumFindIdx u qs (acc + q)).map (· + 1)

/-- Modelled from the spec: `helpers.discrete_sample` in non-log mode is not
among the given sources; per §4.1 it normalizes the weights to a probability
vector, draws a uniform variate `u`, and returns the smallest index whose
cumulative probability exceeds `u`, failing on a degenerate weight vector. -/
def discrete_sample (w : List ℚ) (u : ℚ) : Option ℕ :=
  let s := w.sum
  if s ≤ 0 then none else cumFindIdx u (w.map (· / s)) 0

/-- The weight vector built by one step of `sample_latent` (lines 68-72).  Note
line 71 sets each existing cluster's weight to `sum(cluster_ids == cluster_id)`
— a count inside the deduplicated array, hence always `1` — and the last entry
to `alpha`. -/
def latent_step_weights (c_before : List ℤ) (alpha : ℚ) : List ℚ :=
  let cluster_ids := sortedDedup c_before
  (cluster_ids.map fun cid => (cluster_ids.count cid : ℚ)) ++ [alpha]

/-- The loop of `sample_latent` (lines 66-73): `m` remaining indices, current
index `i`; each step draws from the step weights of the prefix `c[:i]` in
non-log mode with the uniform variate of time `i` and stores the returned
index itself into `c[i]`. -/
def latent_loop (alpha : ℚ) (u : ℕ → ℚ) : ℕ → ℕ → List ℤ → Option (List ℤ)
  | 0, _, c => some c
  | m + 1, i, c =>
    match discrete_sample (latent_step_weights (c.take i) alpha) (u i) with
    | none => none
    | some idx => latent_loop alpha u m (i + 1) (c.set i (idx : ℤ))

/-- `BinoChain.sample_latent` (lines 61-75): `alpha` is the gamma variate drawn
from the `Gamma(alpha_shape, alpha_scale)` prior (the injected source supplies
the variate itself), `c` starts as `zeros(n)` and indices `1, …, n-1` are
filled sequentially. -/
def sample_latent {R : Type} (params : Params) (n : ℕ) (rng : Rng R) :
    Option ChainState :=
  (latent_loop rng.gammaVal rng.unif (n - 1) 1 (List.replicate n 0)).map
    fun c => ChainState.mk rng.gammaVal c

/-- `unique(c, return_inverse=True)`: each label replaced by its rank among the
sorted distinct labels. -/
def normLabels (c : List ℤ) : List ℕ :=
  c.map fun lab => (sortedDedup c).indexOf lab

/-- `BinoChain.sample_data` (lines 48-58): one Beta(β,β) variate per cluster
(`rng.beta(beta, beta, size=n_clusters)`), shared by every feature dimension;
entry `(i, d)` is `uniform < clusters[c[i]]`.  The Beta stream is consumed in
cluster order, the uniform stream row by row. -/
def sample_data {R : Type} (state : ChainState) (params : Params) (n dim : ℕ)
    (rng : Rng R) : List (List Bool) :=
  let cn := normLabels state.c
  (List.range n).map fun i =>
    (List.range dim).map fun d =>
      decide (rng.unif (i * dim + d) < rng.betaDraw (cn.getD i 0))

/-- Modelled from the spec: the data-resampling step §4.5 describes, drawing an
independent Beta(β,β) success probability per (cluster, feature dimension) —
written to compare with the code's `sample_data`, which draws one variate per
cluster only. -/
def sample_data_perdim {R : Type} (state : ChainState) (params : Params)
    (n dim : ℕ) (rng : Rng R) : List (List Bool) :=
  let cn := normLabels state.c
  (List.range n).map fun i =>
    (List.range dim).map fun d =>
      decide (rng.unif (i * dim + d) < rng.betaDraw ((cn.getD i 0) * dim + d))

/-- The per-cluster log-weights as §4.3 of the spec states them: every
cluster's posterior Beta parameters start from the original scalar prior
pseudo-count `beta`, and the new-cluster entry uses the prior `(beta, beta)`
itself.  Written from the spec's words, to be compared with the code's
`sample_c_weights`. -/
def sample_c_weights_spec {R : Type} [CommRing R] (ctx : MathCtx R) (i : ℕ)
    (c : List ℤ) (data : List (List Bool)) (dp_alpha beta : ℚ) : List R :=
  let c_diff := c.eraseIdx i
  let cluster_ids := sortedDedup c_diff
  let xrow := data.getD i []
  let x : ℕ → ℚ := fun d => if xrow.getD d false then 1 else 0
  let dim := xrow.length
  (cluster_ids.map fun lab =>
      let a : ℕ → ℚ := fun d => beta + countTrue (memberRows data c i lab) d
      let b : ℕ → ℚ := fun d => beta + countFalse (memberRows data c i lab) d
      ctx.log (c_diff.count lab : ℚ) +
        dimSum dim fun d =>
          ctx.betaln (a d + x d) (b d + (1 - x d)) - ctx.betaln (a d) (b d)) ++
    [ctx.log dp_alpha +
      dimSum dim fun d =>
        ctx.betaln (beta + x d) (beta + (1 - x d)) - ctx.betaln beta beta]

/-- The sweep exactly as §4.4 of the spec words it: for `i, i+1, …, i+m-1` in
increasing order, replace entry `i` by the Cluster Assignment Update's result
on the partially-updated vector, writing it back before the next index, with
`a` (the fresh alpha) held fixed throughout. -/
def sweepFrom {R : Type} [CommRing R] (ctx : MathCtx R) (data : List (List Bool))
    (a beta : ℚ) (rng : Rng R) : ℕ → ℕ → List ℤ → Option (List ℤ)
  | _, 0, c => some c
  | i, m + 1, c =>
    (sample_c ctx i c data a beta (rng.pickLog (i + 1))).bind fun r =>
      sweepFrom ctx data a beta rng (i + 1) m (c.set i r)

/-- A computable context instantiating `R := ℚ`, used by concrete witnesses of
theorems that hold for every context. -/
def ctxQfix : MathCtx ℚ :=
  ⟨fun q => q, fun a b => a * a * b + b * b, fun q => q, fun x s c => x + s + c⟩

/-- A concrete random source for witnesses: unit gamma variate, uniform stream
at `1/2`, Beta stream `9/10, 1/10, 1/10, …`, log-mode draw always index `0`. -/
def rngFix : Rng ℚ :=
  ⟨1, fun _ => 1 / 2, fun t => if t = 0 then 9 / 10 else 1 / 10, fun _ _ => 0⟩

/-- A second concrete random source whose log-mode draw always picks the last
index (the new-cluster option of `sample_c`). -/
def rngLast : Rng ℚ :=
  ⟨1, fun _ => 1 / 4, fun _ => 1 / 2, fun _ ws => ws.length - 1⟩

/-- A concrete hyperparameter bundle for witnesses. -/
def paramsFix : Params := ⟨1, 1, 1⟩

section SortedDedupLemmas

lemma insortUniq_cons (x y : ℤ) (ys : List ℤ) :
    insortUniq x (y :: ys) =
      if x < y then x :: y :: ys else if x = y then y :: ys else y :: insortUniq x ys :=
  rfl

lemma mem_insortUniq {a x : ℤ} {l : List ℤ} : a ∈ insortUniq x l ↔ a = x ∨ a ∈ l := by
  induction l with
  | nil => simp [insortUniq]
  | cons y ys ih =>
    rcases lt_trichotomy x y with h | h | h
    · rw [insortUniq_cons, if_pos h]
      simp [List.mem_cons]
    · subst h
      rw [insortUniq_cons, if_neg (lt_irrefl x), if_pos rfl, List.mem_cons]
      tauto
    · rw [insortUniq_cons, if_neg (not_lt.mpr h.le), if_neg (ne_of_gt h)]
      rw [List.mem_cons, List.mem_cons, ih]
      tauto

lemma sorted_insortUniq {x : ℤ} {l : List ℤ} (hs : l.Sorted (· < ·)) :
    (insortUniq x l).Sorted (· < ·) := by
  induction l with
  | nil => simp [insortUniq]
  | cons y ys ih =>
    rcases List.sorted_cons.mp hs with ⟨hy, hys⟩
    rcases lt_trichotomy x y with h | h | h
    · rw [insortUniq_cons, if_pos h]
      refine List.sorted_cons.mpr ⟨fun b hb => ?_, hs⟩
      rcases List.mem_cons.mp hb with rfl | hb
      · exact h
      · exact lt_trans h (hy b hb)
    · subst h
      rw [insortUniq_cons, if_neg (lt_irrefl x), if_pos rfl]
      exact hs
    · rw [insortUniq_cons, if_neg (not_lt.mpr h.le), if_neg (ne_of_gt h)]
      refine List.sorted_cons.mpr ⟨fun b hb => ?_, ih hys⟩
      rcases mem_insortUniq.mp hb with rfl | hb
      · exact h
      · exact hy b hb

lemma sortedDedup_cons (a : ℤ) (l : List ℤ) :
    sortedDedup (a :: l) = insortUniq a (sortedDedup l) := rfl

lemma sortedDedup_sorted : ∀ (l : List ℤ), (sortedDedup l).Sorted (· < ·)
  | [] => by simp [sortedDedup]
  | a :: l => by
    rw [sortedDedup_cons]
    exact sorted_insortUniq (sortedDedup_sorted l)

lemma mem_sortedDedup {a : ℤ} : ∀ {l : List ℤ}, a ∈ sortedDedup l ↔ a ∈ l
  | [] => by simp [sortedDedup]
  | b :: l => by
    rw [sortedDedup_cons, mem_insortUniq, mem_sortedDedup (l := l), List.mem_cons]

lemma nodup_sortedDedup (l : List ℤ) : (sortedDedup l).Nodup :=
  (sortedDedup_sorted l).nodup

lemma toFinset_sortedDedup (l : List ℤ) : (sortedDedup l).toFinset = l.toFinset := by
  ext a
  simp [List.mem_toFinset, mem_sortedDedup]

lemma nDistinct_eq_card (l : List ℤ) : nDistinct l = l.toFinset.card := by
  rw [nDistinct, ← toFinset_sortedDedup l, List.toFinset_card_of_nodup (nodup_sortedDedup l)]

lemma sorted_le_getLast :
    ∀ (l : List ℤ) (h : l ≠ []), l.Sorted (· < ·) → ∀ a ∈ l, a ≤ l.getLast h := by
  intro l
  induction l with
  | nil => simp
  | cons x xs ih =>
    intro h hs a ha
    cases xs with
    | nil =>
      rcases List.mem_singleton.mp ha with rfl
      simp [List.getLast]
    | cons y ys =>
      rw [List.getLast_cons (by simp)]
      rcases List.sorted_cons.mp hs with ⟨hx, hrest⟩
      rcases List.mem_cons.mp ha with rfl | ha2
      · exact le_trans (hx y (by simp)).le
          (ih (by simp) hrest y (by simp))
      · exact ih (by simp) hrest a ha2

end SortedDedupLemmas

/-- C2 (code_bug evidence): at the forward-sampler step whose already-assigned
prefix is `[0, 0]` (both earlier observations in cluster `0`), the code's
weight vector gives the existing cluster weight `1`; the occupancy count the
claim demands is `2`. -/
theorem latent_weights_not_occupancy :
    latent_step_weights [0, 0] 1 = [1, 1] ∧
      (([0, 0] : List ℤ).count 0 : ℚ) = 2 ∧ (1 : ℚ) ≠ 2 :=
  ⟨by decide, by decide, by norm_num⟩

/-- C5 (code_bug evidence): with one cluster, two feature dimensions, Beta
stream `9/10, 1/10, …` and uniforms `1/2`, the code's `sample_data` compares
both dimensions against the single per-cluster variate `9/10` and emits
`[[true, true]]`, while the per-(cluster, dimension) draw the spec describes
emits `[[true, false]]`. -/
theorem sample_data_shares_cluster_draw :
    sample_data (R := ℚ) ⟨1, [7]⟩ paramsFix 1 2 rngFix = [[true, true]] ∧
      sample_data_perdim (R := ℚ) ⟨1, [7]⟩ paramsFix 1 2 rngFix = [[true, false]] ∧
      sample_data (R := ℚ) ⟨1, [7]⟩ paramsFix 1 2 rngFix ≠
        sample_data_perdim (R := ℚ) ⟨1, [7]⟩ paramsFix 1 2 rngFix := by
  refine ⟨?_, ?_, ?_⟩ <;>
    norm_num [sample_data, sample_data_perdim, normLabels, rngFix, paramsFix,
      sortedDedup, insortUniq, List.range_succ, List.indexOf, List.findIdx,
      List.findIdx.go]

/-- C9: the Transition Kernel is a deterministic function of
`(state, hyperparameters, data)` and the random source's state: two calls with
equal random sources give equal (bit-identical) output states.  In this
embedding the random source is threaded explicitly, mirroring that the Python
method reads nothing but its arguments. -/
theorem transition_deterministic :
    ∀ (R : Type) [inst : CommRing R] (ctx : MathCtx R) (st : ChainState)
      (params : Params) (data : List (List Bool)) (rng1 rng2 : Rng R),
      rng1 = rng2 →
      transition ctx st params data rng1 = transition ctx st params data rng2 := by
  intro R inst ctx st params data rng1 rng2 h
  rw [h]

/-- Witness for C9 at a concrete input. -/
theorem transition_deterministic_witness :
    rngFix = rngFix ∧
      transition ctxQfix ⟨1, [0, 1]⟩ paramsFix [[true], [false]] rngFix =
        transition ctxQfix ⟨1, [0, 1]⟩ paramsFix [[true], [false]] rngFix :=
  ⟨rfl, transition_deterministic ℚ ctxQfix ⟨1, [0, 1]⟩ paramsFix [[true], [false]]
    rngFix rngFix rfl⟩

section SampleCLemmas

lemma clusterWeights_fst_length {R : Type} [CommRing R] (ctx : MathCtx R)
    (c_diff : List ℤ) (mem : ℤ → List (List Bool)) (x : ℕ → ℚ) (dim : ℕ) :
    ∀ (ids : List ℤ) (bv : ℕ → ℚ),
      ((clusterWeights ctx c_diff mem x dim bv ids).1).length = ids.length
  | [], _ => rfl
  | lab :: rest, bv => by
    simp [clusterWeights,
      clusterWeights_fst_length ctx c_diff mem x dim rest]

lemma sample_c_weights_length {R : Type} [CommRing R] (ctx : MathCtx R) (i : ℕ)
    (c : List ℤ) (data : List (List Bool)) (dp_alpha beta : ℚ) :
    (sample_c_weights ctx i c data dp_alpha beta).length =
      (sortedDedup (c.eraseIdx i)).length + 1 := by
  simp [sample_c_weights, clusterWeights_fst_length]

lemma sample_c_some_mem {R : Type} [CommRing R] {ctx : MathCtx R} {i : ℕ}
    {c : List ℤ} {data : List (List Bool)} {dp_alpha beta : ℚ} {pick : List R → ℕ}
    {r : ℤ} (h : sample_c ctx i c data dp_alpha beta pick = some r) :
    r ∈ c.eraseIdx i ∨
      ∃ hne : sortedDedup (c.eraseIdx i) ≠ [],
        r = (sortedDedup (c.eraseIdx i)).getLast hne + 1 := by
  simp only [sample_c] at h
  split at h
  · rcases Option.map_eq_some'.mp h with ⟨m, hm, hr⟩
    have hne : sortedDedup (c.eraseIdx i) ≠ [] := by
      intro he
      rw [he] at hm
      simp at hm
    rw [List.getLast?_eq_getLast _ hne] at hm
    exact Or.inr ⟨hne, by rw [← hr, Option.some.inj hm]⟩
  · exact Or.inl (mem_sortedDedup.mp (List.mem_iff_getElem?.mpr ⟨_, h⟩))

end SampleCLemmas

/-- C6: every label returned by the Cluster Assignment Update is either one of
the distinct labels present among the other observations, or the maximum
existing label plus one — never a reused or gap value. -/
theorem sample_c_label_range :
    ∀ (R : Type) [inst : CommRing R] (ctx : MathCtx R) (i : ℕ) (c : List ℤ)
      (data : List (List Bool)) (dp_alpha beta : ℚ) (pick : List R → ℕ) (r : ℤ),
      sample_c ctx i c data dp_alpha beta pick = some r →
      r ∈ c.eraseIdx i ∨
        (r ∉ c.eraseIdx i ∧
          ∃ m ∈ c.eraseIdx i, (∀ y ∈ c.eraseIdx i, y ≤ m) ∧ r = m + 1) := by
  intro R inst ctx i c data dp_alpha beta pick r h
  rcases sample_c_some_mem h with hmem | ⟨hne, hr⟩
  · exact Or.inl hmem
  · right
    have hmax : ∀ y ∈ c.eraseIdx i, y ≤ (sortedDedup (c.eraseIdx i)).getLast hne :=
      fun y hy =>
        sorted_le_getLast _ hne (sortedDedup_sorted _) y (mem_sortedDedup.mpr hy)
    refine ⟨fun hcon => ?_, (sortedDedup (c.eraseIdx i)).getLast hne,
      mem_sortedDedup.mp (List.getLast_mem hne), hmax, hr⟩
    have := hmax r hcon
    omega

/-- Witness for C6: a concrete update that chooses the new-cluster option and
returns `max existing label + 1 = 4`. -/
theorem sample_c_label_range_witness :
    sample_c ctxQfix 0 [5, 3] [[], []] 1 1 (rngLast.pickLog 0) = some 4 ∧
      ((4 : ℤ) ∈ ([5, 3] : List ℤ).eraseIdx 0 ∨
        ((4 : ℤ) ∉ ([5, 3] : List ℤ).eraseIdx 0 ∧
          ∃ m ∈ ([5, 3] : List ℤ).eraseIdx 0,
            (∀ y ∈ ([5, 3] : List ℤ).eraseIdx 0, y ≤ m) ∧ (4 : ℤ) = m + 1)) := by
  have he : sample_c ctxQfix 0 [5, 3] [[], []] 1 1 (rngLast.pickLog 0) = some 4 := by
    norm_num [sample_c, sample_c_weights, clusterWeights, sortedDedup, insortUniq,
      memberRows, dimSum, ctxQfix, rngLast]
  exact ⟨he,
    sample_c_label_range ℚ ctxQfix 0 [5, 3] [[], []] 1 1 (rngLast.pickLog 0) 4 he⟩

section SetEraseLemmas

lemma eraseIdx_set : ∀ (c : List ℤ) (i : ℕ) (r : ℤ),
    (c.set i r).eraseIdx i = c.eraseIdx i
  | [], _, _ => rfl
  | _ :: _, 0, _ => rfl
  | a :: c, i + 1, r => by
    simp [List.set_cons_succ, List.eraseIdx_cons_succ, eraseIdx_set c i r]

lemma getD_set_self : ∀ (c : List ℤ) (i : ℕ) (r : ℤ), i < c.length →
    (c.set i r).getD i 0 = r
  | _ :: _, 0, _, _ => rfl
  | a :: c, i + 1, r, h => by
    simpa using getD_set_self c i r (by simpa using h)

lemma toFinset_insert_getD : ∀ (c : List ℤ) (i : ℕ), i < c.length →
    c.toFinset = insert (c.getD i 0) (c.eraseIdx i).toFinset
  | a :: c, 0, _ => by simp [List.eraseIdx]
  | a :: c, i + 1, h => by
    have ih := toFinset_insert_getD c i (by simpa using h)
    simp only [List.eraseIdx_cons_succ, List.getD_cons_succ, List.toFinset_cons]
    rw [ih]
    exact Finset.Insert.comm _ _ _

end SetEraseLemmas

/-- C8: writing the result of one Cluster Assignment Update back into `c[i]`
changes the number of distinct labels in `c` by at most `1` in either
direction. -/
theorem sample_c_nDistinct_delta :
    ∀ (R : Type) [inst : CommRing R] (ctx : MathCtx R) (i : ℕ) (c : List ℤ)
      (data : List (List Bool)) (dp_alpha beta : ℚ) (pick : List R → ℕ) (r : ℤ),
      i < c.length →
      sample_c ctx i c data dp_alpha beta pick = some r →
      (nDistinct (c.set i r) : ℤ) - (nDistinct c : ℤ) ≤ 1 ∧
        (nDistinct c : ℤ) - (nDistinct (c.set i r) : ℤ) ≤ 1 := by
  intro R inst ctx i c data dp_alpha beta pick r hi _h
  have h1 : c.toFinset = insert (c.getD i 0) (c.eraseIdx i).toFinset :=
    toFinset_insert_getD c i hi
  have h2 : (c.set i r).toFinset = insert r (c.eraseIdx i).toFinset := by
    have := toFinset_insert_getD (c.set i r) i (by simpa using hi)
    rwa [getD_set_self c i r hi, eraseIdx_set c i r] at this
  have b1 : (c.eraseIdx i).toFinset.card ≤ c.toFinset.card := by
    rw [h1]
    exact Finset.card_le_card (Finset.subset_insert _ _)
  have b2 : c.toFinset.card ≤ (c.eraseIdx i).toFinset.card + 1 := by
    rw [h1]
    exact Finset.card_insert_le _ _
  have b3 : (c.eraseIdx i).toFinset.card ≤ (c.set i r).toFinset.card := by
    rw [h2]
    exact Finset.card_le_card (Finset.subset_insert _ _)
  have b4 : (c.set i r).toFinset.card ≤ (c.eraseIdx i).toFinset.card + 1 := by
    rw [h2]
    exact Finset.card_insert_le _ _
  rw [nDistinct_eq_card, nDistinct_eq_card]
  omega

/-- Witness for C8 at a concrete update that merges observation 0 into the
other observation's cluster (distinct-label count drops from 2 to 1). -/
theorem sample_c_nDistinct_delta_witness :
    (0 : ℕ) < ([0, 1] : List ℤ).length ∧
      sample_c ctxQfix 0 [0, 1] [[], []] 1 1 (rngFix.pickLog 1) = some 1 ∧
      ((nDistinct (([0, 1] : List ℤ).set 0 1) : ℤ) - (nDistinct [0, 1] : ℤ) ≤ 1 ∧
        (nDistinct ([0, 1] : List ℤ) : ℤ) - (nDistinct (([0, 1] : List ℤ).set 0 1) : ℤ) ≤ 1) := by
  have he : sample_c ctxQfix 0 [0, 1] [[], []] 1 1 (rngFix.pickLog 1) = some 1 := by
    norm_num [sample_c, sample_c_weights, clusterWeights, sortedDedup, insortUniq,
      memberRows, dimSum, ctxQfix, rngFix]
  exact ⟨by norm_num, he,
    sample_c_nDistinct_delta ℚ ctxQfix 0 [0, 1] [[], []] 1 1 (rngFix.pickLog 1) 1
      (by norm_num) he⟩

section AlphaGridLemmas

lemma alphaGrid_length : alphaGrid.length = 1000 := by
  rw [alphaGrid, List.length_map, List.length_range]

lemma alphaGrid_getElem? {j : ℕ} (hj : j < 1000) :
    alphaGrid[j]? = some (1 / 10 + (j : ℚ) * ((10 - 1 / 10) / 999)) := by
  rw [alphaGrid, List.getElem?_map, List.getElem?_range hj, Option.map_some']

lemma mem_alphaGrid_pos {q : ℚ} (hq : q ∈ alphaGrid) : 0 < q := by
  simp only [alphaGrid, List.mem_map, List.mem_range] at hq
  obtain ⟨i, _, rfl⟩ := hq
  have hs : (0 : ℚ) ≤ (10 - 1 / 10) / 999 := by norm_num
  have hi : (0 : ℚ) ≤ (i : ℚ) := Nat.cast_nonneg i
  have h0 : (0 : ℚ) ≤ (i : ℚ) * ((10 - 1 / 10) / 999) := mul_nonneg hi hs
  linarith

end AlphaGridLemmas

/-- C3: the Concentration Parameter Update evaluates, at every point of the
fixed grid `linspace(0.1, 10, 1000)`, the log-density
`gamma.logpdf(α) + (gammaln(α) + k·log(α) - gammaln(α + n))` with `k` the
number of distinct labels, draws a grid index in log mode and returns that grid
point; and its result depends on the state only through `k`. -/
theorem sample_alpha_spec :
    ∀ (R : Type) [inst : CommRing R] (ctx : MathCtx R) (params : Params) (n : ℕ)
      (rng : Rng R) (s1 s2 : ChainState),
      nDistinct s1.c = nDistinct s2.c →
      (sample_alpha ctx s1 params n rng =
          alphaGrid[rng.pickLog 0 (alphaGrid.map fun a =>
            ctx.gammaLogpdf a params.alpha_shape params.alpha_scale +
              (ctx.gammaln a + (nDistinct s1.c : R) * ctx.log a -
                ctx.gammaln (a + n)))]? ∧
        alphaGrid.length = 1000 ∧
        alphaGrid.getD 0 0 = 1 / 10 ∧
        alphaGrid.getD 999 0 = 10 ∧
        (∀ (j : ℕ) (a b : ℚ), alphaGrid[j]? = some a → alphaGrid[j + 1]? = some b →
          b - a = (10 - 1 / 10) / 999) ∧
        sample_alpha ctx s1 params n rng = sample_alpha ctx s2 params n rng) := by
  intro R inst ctx params n rng s1 s2 hk
  refine ⟨rfl, alphaGrid_length, ?_, ?_, ?_, ?_⟩
  · rw [List.getD_eq_getElem?_getD, alphaGrid_getElem? (by norm_num)]
    norm_num
  · rw [List.getD_eq_getElem?_getD, alphaGrid_getElem? (by norm_num)]
    norm_num
  · intro j a b h1 h2
    have hj1 : j + 1 < 1000 := by
      by_contra hj
      rw [List.getElem?_eq_none (by rw [alphaGrid_length]; omega)] at h2
      exact Option.noConfusion h2
    rw [alphaGrid_getElem? (by omega)] at h1
    rw [alphaGrid_getElem? hj1] at h2
    obtain rfl := (Option.some.inj h1).symm
    obtain rfl := (Option.some.inj h2).symm
    push_cast
    ring
  · simp only [sample_alpha]
    rw [hk]

/-- Witness for C3: two different states with the same number of distinct
labels. -/
theorem sample_alpha_spec_witness :
    nDistinct (ChainState.mk 1 [0, 0, 5]).c = nDistinct (ChainState.mk 2 [3, 4, 3]).c ∧
      sample_alpha ctxQfix ⟨1, [0, 0, 5]⟩ paramsFix 5 rngFix =
        sample_alpha ctxQfix ⟨2, [3, 4, 3]⟩ paramsFix 5 rngFix :=
  ⟨by decide,
    (sample_alpha_spec ℚ ctxQfix paramsFix 5 rngFix ⟨1, [0, 0, 5]⟩ ⟨2, [3, 4, 3]⟩
      (by decide)).2.2.2.2.2⟩

section SweepLemmas

variable {R : Type} [CommRing R]

lemma sweep_foldl_none (ctx : MathCtx R) (data : List (List Bool)) (a beta : ℚ)
    (rng : Rng R) :
    ∀ (l : List ℕ),
      l.foldl
        (fun oc j => oc.bind fun c2 =>
          (sample_c ctx j c2 data a beta (rng.pickLog (j + 1))).map fun r =>
            c2.set j r)
        none = none
  | [] => rfl
  | j :: t => by
    simp only [List.foldl_cons, Option.none_bind]
    exact sweep_foldl_none ctx data a beta rng t

lemma sweep_foldl_eq (ctx : MathCtx R) (data : List (List Bool)) (a beta : ℚ)
    (rng : Rng R) :
    ∀ (m i : ℕ) (c : List ℤ),
      (List.range' i m).foldl
        (fun oc j => oc.bind fun c2 =>
          (sample_c ctx j c2 data a beta (rng.pickLog (j + 1))).map fun r =>
            c2.set j r)
        (some c) = sweepFrom ctx data a beta rng i m c := by
  intro m
  induction m with
  | zero => intro i c; rfl
  | succ m ih =>
    intro i c
    rw [List.range'_succ]
    simp only [List.foldl_cons, Option.some_bind]
    cases hsc : sample_c ctx i c data a beta (rng.pickLog (i + 1)) with
    | none =>
      rw [sweepFrom, hsc]
      simp only [Option.map_none', Option.none_bind]
      exact sweep_foldl_none ctx data a beta rng _
    | some r =>
      rw [sweepFrom, hsc]
      simp only [Option.map_some', Option.some_bind]
      exact ih (i + 1) (c.set i r)

lemma transition_eq_sweep (ctx : MathCtx R) (st : ChainState) (params : Params)
    (data : List (List Bool)) (rng : Rng R) :
    transition ctx st params data rng =
      (sample_alpha ctx st params data.length rng).bind fun a =>
        (sweepFrom ctx data a params.beta rng 0 data.length st.c).map fun c =>
          ChainState.mk a c := by
  set_option maxRecDepth 4000 in simp only [transition]
  cases hsa : sample_alpha ctx st params data.length rng with
  | none => rfl
  | some a =>
    simp only [Option.some_bind]
    rw [List.range_eq_range', sweep_foldl_eq]

end SweepLemmas

/-- C4: one transition first samples the new `alpha` from the current state and
then performs the sequential sweep of §4.4: for `i = 0, …, n-1` in increasing
order, entry `i` is replaced by the Cluster Assignment Update's result on the
partially-updated label vector (each result written back before the next index
is processed), with the new `alpha` held fixed throughout. -/
theorem transition_is_sequential_sweep :
    ∀ (R : Type) [inst : CommRing R] (ctx : MathCtx R) (st : ChainState)
      (params : Params) (data : List (List Bool)) (rng : Rng R),
      transition ctx st params data rng =
        (sample_alpha ctx st params data.length rng).bind fun a =>
          (sweepFrom ctx data a params.beta rng 0 data.length st.c).map fun c =>
            ChainState.mk a c := by
  intro R inst ctx st params data rng
  exact transition_eq_sweep ctx st params data rng

section InvariantLemmas

variable {R : Type} [CommRing R]

lemma sample_c_some_nonneg {ctx : MathCtx R} {i : ℕ} {c : List ℤ}
    {data : List (List Bool)} {dp_alpha beta : ℚ} {pick : List R → ℕ} {r : ℤ}
    (h : sample_c ctx i c data dp_alpha beta pick = some r)
    (hc : ∀ y ∈ c, 0 ≤ y) : 0 ≤ r := by
  rcases sample_c_some_mem h with hmem | ⟨hne, hr⟩
  · exact hc r (List.mem_of_mem_eraseIdx hmem)
  · have hm : (sortedDedup (c.eraseIdx i)).getLast hne ∈ c.eraseIdx i :=
      mem_sortedDedup.mp (List.getLast_mem hne)
    have h0 := hc _ (List.mem_of_mem_eraseIdx hm)
    omega

lemma sweepFrom_inv (ctx : MathCtx R) (data : List (List Bool)) (a beta : ℚ)
    (rng : Rng R) :
    ∀ (m i : ℕ) (c c2 : List ℤ),
      sweepFrom ctx data a beta rng i m c = some c2 →
      (∀ y ∈ c, 0 ≤ y) →
      c2.length = c.length ∧ ∀ y ∈ c2, 0 ≤ y := by
  intro m
  induction m with
  | zero =>
    intro i c c2 h hc
    obtain rfl : c = c2 := Option.some.inj h
    exact ⟨rfl, hc⟩
  | succ m ih =>
    intro i c c2 h hc
    rw [sweepFrom] at h
    cases hsc : sample_c ctx i c data a beta (rng.pickLog (i + 1)) with
    | none =>
      rw [hsc] at h
      exact absurd h (by simp)
    | some r =>
      rw [hsc] at h
      simp only [Option.some_bind] at h
      have hr : 0 ≤ r := sample_c_some_nonneg hsc hc
      have hc2 : ∀ y ∈ c.set i r, 0 ≤ y := by
        intro y hy
        rcases List.mem_or_eq_of_mem_set hy with hy2 | rfl
        · exact hc y hy2
        · exact hr
      rcases ih (i + 1) (c.set i r) c2 h hc2 with ⟨hl, hnn⟩
      exact ⟨by rw [hl, List.length_set], hnn⟩

lemma latent_loop_inv (alpha : ℚ) (u : ℕ → ℚ) :
    ∀ (m i : ℕ) (c c2 : List ℤ),
      latent_loop alpha u m i c = some c2 →
      (∀ y ∈ c, 0 ≤ y) →
      c2.length = c.length ∧ ∀ y ∈ c2, 0 ≤ y := by
  intro m
  induction m with
  | zero =>
    intro i c c2 h hc
    obtain rfl : c = c2 := Option.some.inj h
    exact ⟨rfl, hc⟩
  | succ m ih =>
    intro i c c2 h hc
    rw [latent_loop] at h
    cases hds : discrete_sample (latent_step_weights (c.take i) alpha) (u i) with
    | none =>
      rw [hds] at h
      exact absurd h (by simp)
    | some idx =>
      rw [hds] at h
      have hc2 : ∀ y ∈ c.set i (idx : ℤ), 0 ≤ y := by
        intro y hy
        rcases List.mem_or_eq_of_mem_set hy with hy2 | rfl
        · exact hc y hy2
        · exact Int.natCast_nonneg idx
      rcases ih (i + 1) (c.set i (idx : ℤ)) c2 h hc2 with ⟨hl, hnn⟩
      exact ⟨by rw [hl, List.length_set], hnn⟩

end InvariantLemmas

/-- C7: a state produced by the Forward Sampler has `len(c) = n`, non-negative
labels and positive `alpha` (the gamma variate is positive, as a Gamma draw
is); and the Transition Kernel preserves these invariants: from a state with
`len(c) = n` and non-negative labels it produces a state with `len(c) = n`,
non-negative labels and `alpha > 0` (a grid point of `[0.1, 10]`). -/
theorem chain_state_invariants :
    (∀ (R : Type) (params : Params) (n : ℕ) (rng : Rng R) (s : ChainState),
        1 ≤ n → 0 < rng.gammaVal → sample_latent params n rng = some s →
        s.c.length = n ∧ (∀ y ∈ s.c, 0 ≤ y) ∧ 0 < s.alpha) ∧
      ∀ (R : Type) [inst : CommRing R] (ctx : MathCtx R) (st : ChainState)
        (params : Params) (data : List (List Bool)) (rng : Rng R) (s2 : ChainState),
        1 ≤ data.length → st.c.length = data.length → (∀ y ∈ st.c, 0 ≤ y) →
        transition ctx st params data rng = some s2 →
        s2.c.length = data.length ∧ (∀ y ∈ s2.c, 0 ≤ y) ∧ 0 < s2.alpha := by
  constructor
  · intro R params n rng s _hn hg h
    simp only [sample_latent] at h
    rcases Option.map_eq_some'.mp h with ⟨c2, hloop, rfl⟩
    rcases latent_loop_inv rng.gammaVal rng.unif (n - 1) 1 _ c2 hloop
        (fun y hy => by rw [List.eq_of_mem_replicate hy]) with ⟨hl, hnn⟩
    exact ⟨by rw [hl, List.length_replicate], hnn, hg⟩
  · intro R inst ctx st params data rng s2 _hn hlen hc h
    rw [transition_eq_sweep] at h
    cases hsa : sample_alpha ctx st params data.length rng with
    | none =>
      rw [hsa] at h
      exact absurd h (by simp)
    | some a =>
      rw [hsa] at h
      simp only [Option.some_bind] at h
      rcases Option.map_eq_some'.mp h with ⟨c2, hsw, rfl⟩
      rcases sweepFrom_inv ctx data a params.beta rng data.length 0 st.c c2 hsw hc
        with ⟨hl, hnn⟩
      have hmem : a ∈ alphaGrid := by
        simp only [sample_alpha] at hsa
        exact List.mem_iff_getElem?.mpr ⟨_, hsa⟩
      exact ⟨by rw [hl, hlen], hnn, mem_alphaGrid_pos hmem⟩

/-- Witness for C7: a concrete forward draw and a concrete transition, with
every hypothesis discharged by evaluation. -/
theorem chain_state_invariants_witness :
    ((1 : ℕ) ≤ 2 ∧ 0 < rngFix.gammaVal ∧
        sample_latent (R := ℚ) paramsFix 2 rngFix = some ⟨1, [0, 1]⟩ ∧
        ((ChainState.mk 1 [0, 1]).c.length = 2 ∧
          (∀ y ∈ (ChainState.mk 1 [0, 1]).c, 0 ≤ y) ∧
          0 < (ChainState.mk 1 [0, 1]).alpha)) ∧
      (transition ctxQfix ⟨1, [0, 1]⟩ paramsFix [[true], [false]] rngFix =
          some ⟨1 / 10, [1, 1]⟩ ∧
        ((ChainState.mk (1 / 10) [1, 1]).c.length = ([[true], [false]] : List (List Bool)).length ∧
          (∀ y ∈ (ChainState.mk (1 / 10) [1, 1]).c, 0 ≤ y) ∧
          0 < (ChainState.mk (1 / 10) [1, 1]).alpha)) := by
  have hlat : sample_latent (R := ℚ) paramsFix 2 rngFix = some ⟨1, [0, 1]⟩ := by
    norm_num [sample_latent, latent_loop, discrete_sample, cumFindIdx,
      latent_step_weights, sortedDedup, insortUniq, rngFix, paramsFix,
      List.replicate]
  have hsa : sample_alpha ctxQfix ⟨1, [0, 1]⟩ paramsFix 2 rngFix = some (1 / 10) := by
    simp only [sample_alpha, rngFix]
    rw [alphaGrid_getElem? (by norm_num)]
    norm_num
  have htr : transition ctxQfix ⟨1, [0, 1]⟩ paramsFix [[true], [false]] rngFix =
      some ⟨1 / 10, [1, 1]⟩ := by
    rw [transition_eq_sweep]
    simp only [List.length_cons, List.length_nil]
    rw [hsa]
    simp only [Option.some_bind]
    norm_num [sweepFrom, sample_c, sample_c_weights, clusterWeights, sortedDedup,
      insortUniq, memberRows, dimSum, ctxQfix, rngFix, paramsFix, List.range_succ]
  refine ⟨⟨by norm_num, by norm_num [rngFix], hlat, ?_⟩, htr, ?_⟩
  · exact chain_state_invariants.1 ℚ paramsFix 2 rngFix ⟨1, [0, 1]⟩ (by norm_num)
      (by norm_num [rngFix]) hlat
  · exact chain_state_invariants.2 ℚ ctxQfix ⟨1, [0, 1]⟩ paramsFix [[true], [false]]
      rngFix ⟨1 / 10, [1, 1]⟩ (by norm_num) (by norm_num)
      (by decide) htr

section ContiguityLemmas

lemma cumFindIdx_lt_length {u : ℚ} :
    ∀ {l : List ℚ} {acc : ℚ} {j : ℕ}, cumFindIdx u l acc = some j → j < l.length := by
  intro l
  induction l with
  | nil =>
    intro acc j h
    simp [cumFindIdx] at h
  | cons q qs ih =>
    intro acc j h
    rw [cumFindIdx] at h
    split at h
    · obtain rfl := Option.some.inj h
      simp
    · rcases Option.map_eq_some'.mp h with ⟨j2, hj2, rfl⟩
      have := ih hj2
      simp only [List.length_cons]
      omega

lemma discrete_sample_lt_length {w : List ℚ} {u : ℚ} {j : ℕ}
    (h : discrete_sample w u = some j) : j < w.length := by
  simp only [discrete_sample] at h
  split at h
  · exact absurd h (by simp)
  · have := cumFindIdx_lt_length h
    rwa [List.length_map] at this

lemma latent_step_weights_length (cb : List ℤ) (alpha : ℚ) :
    (latent_step_weights cb alpha).length = (sortedDedup cb).length + 1 := by
  simp [latent_step_weights]

lemma natCast_int_injective : Function.Injective (fun t : ℕ => (t : ℤ)) := by
  intro a b hab
  simpa using hab

lemma latent_loop_contig (alpha : ℚ) (u : ℕ → ℚ) :
    ∀ (m : ℕ) (pre : List ℤ) (mm : ℕ) (c2 : List ℤ),
      latent_loop alpha u m pre.length (pre ++ List.replicate m 0) = some c2 →
      1 ≤ pre.length →
      pre.toFinset = (Finset.range mm).image (fun t : ℕ => (t : ℤ)) →
      pre.getD 0 0 = 0 →
      ∃ k : ℕ, mm ≤ k ∧
        c2.toFinset = (Finset.range k).image (fun t : ℕ => (t : ℤ)) ∧
        c2.length = pre.length + m ∧ c2.getD 0 0 = 0 := by
  intro m
  induction m with
  | zero =>
    intro pre mm c2 h _h1 h2 h3
    rw [latent_loop] at h
    obtain rfl : pre ++ List.replicate 0 (0 : ℤ) = c2 := Option.some.inj h
    exact ⟨mm, le_refl mm, by simpa using h2, by simp, by simpa using h3⟩
  | succ m ih =>
    intro pre mm c2 h h1 h2 h3
    rw [latent_loop] at h
    rw [List.take_left pre _] at h
    cases hds : discrete_sample (latent_step_weights pre alpha) (u pre.length) with
    | none =>
      rw [hds] at h
      exact absurd h (by simp)
    | some idx =>
      rw [hds] at h
      have hset : (pre ++ List.replicate (m + 1) (0 : ℤ)).set pre.length (idx : ℤ) =
          (pre ++ [(idx : ℤ)]) ++ List.replicate m 0 := by
        rw [List.set_append, if_neg (lt_irrefl _), Nat.sub_self,
          List.replicate_succ, List.set_cons_zero, List.append_cons]
      replace h : latent_loop alpha u m (pre.length + 1)
          ((pre ++ List.replicate (m + 1) 0).set pre.length (idx : ℤ)) = some c2 := h
      rw [hset] at h
      have hlen2 : pre.length + 1 = (pre ++ [(idx : ℤ)]).length := by simp
      rw [hlen2] at h
      have hidx : idx < (latent_step_weights pre alpha).length :=
        discrete_sample_lt_length hds
      have hcard : (sortedDedup pre).length = mm := by
        have hh := nDistinct_eq_card pre
        rw [h2, Finset.card_image_of_injective _ natCast_int_injective,
          Finset.card_range] at hh
        exact hh
      rw [latent_step_weights_length, hcard] at hidx
      have hpre2 : (pre ++ [(idx : ℤ)]).toFinset = insert ((idx : ℕ) : ℤ) pre.toFinset := by
        rw [List.toFinset_append, Finset.union_comm, Finset.insert_eq]
        simp
      have hgd2 : (pre ++ [(idx : ℤ)]).getD 0 0 = 0 := by
        rw [List.getD_append _ _ _ 0 h1]
        exact h3
      rcases Nat.lt_succ_iff_lt_or_eq.mp hidx with hlt | heq
      · have habs : ((idx : ℕ) : ℤ) ∈ pre.toFinset := by
          rw [h2]
          exact Finset.mem_image.mpr ⟨idx, Finset.mem_range.mpr hlt, rfl⟩
        have hfin : (pre ++ [(idx : ℤ)]).toFinset =
            (Finset.range mm).image (fun t : ℕ => (t : ℤ)) := by
          rw [hpre2, Finset.insert_eq_self.mpr habs, h2]
        rcases ih (pre ++ [(idx : ℤ)]) mm c2 h (by simp) hfin hgd2
          with ⟨k, hk, hfin2, hlen3, hgd3⟩
        refine ⟨k, hk, hfin2, ?_, hgd3⟩
        rw [hlen3]
        simp
        omega
      · have hfin : (pre ++ [(idx : ℤ)]).toFinset =
            (Finset.range (mm + 1)).image (fun t : ℕ => (t : ℤ)) := by
          rw [hpre2, h2, heq, Finset.range_succ, Finset.image_insert]
        rcases ih (pre ++ [(idx : ℤ)]) (mm + 1) c2 h (by simp) hfin hgd2
          with ⟨k, hk, hfin2, hlen3, hgd3⟩
        refine ⟨k, by omega, hfin2, ?_, hgd3⟩
        rw [hlen3]
        simp
        omega

end ContiguityLemmas

/-- C10: for `n ≥ 1` the Forward Sampler's label vector has `c[0] = 0` and its
set of distinct labels is exactly `{0, 1, …, k-1}` for some `k ≥ 1` (contiguous
from zero, no gaps) — which is why storing the Categorical Sampler's returned
index directly as the label coincides with the chosen cluster's id. -/
theorem sample_latent_labels_contiguous :
    ∀ (R : Type) (params : Params) (n : ℕ) (rng : Rng R) (s : ChainState),
      1 ≤ n → sample_latent params n rng = some s →
      s.c.getD 0 0 = 0 ∧ s.c.length = n ∧
        ∃ k : ℕ, 1 ≤ k ∧ s.c.toFinset = (Finset.range k).image (fun t : ℕ => (t : ℤ)) := by
  intro R params n rng s hn h
  simp only [sample_latent] at h
  rcases Option.map_eq_some'.mp h with ⟨c2, hloop, rfl⟩
  have hrep : List.replicate n (0 : ℤ) = [0] ++ List.replicate (n - 1) 0 := by
    cases n with
    | zero => omega
    | succ m => simp [List.replicate_succ]
  rw [hrep] at hloop
  rcases latent_loop_contig rng.gammaVal rng.unif (n - 1) [0] 1 c2 hloop (by simp)
      (by simp) rfl with ⟨k, hk, hfin, hlen, hgd⟩
  refine ⟨hgd, ?_, k, hk, hfin⟩
  simp only [List.length_cons, List.length_nil] at hlen
  show c2.length = n
  omega

/-- Witness for C10: a concrete three-observation forward draw whose labels are
`[0, 1, 1]`, distinct labels `{0, 1}`. -/
theorem sample_latent_labels_contiguous_witness :
    (1 : ℕ) ≤ 3 ∧ sample_latent (R := ℚ) paramsFix 3 rngFix = some ⟨1, [0, 1, 1]⟩ ∧
      ((ChainState.mk 1 [0, 1, 1]).c.getD 0 0 = 0 ∧
        (ChainState.mk 1 [0, 1, 1]).c.length = 3 ∧
        ∃ k : ℕ, 1 ≤ k ∧
          (ChainState.mk 1 [0, 1, 1]).c.toFinset =
            (Finset.range k).image (fun t : ℕ => (t : ℤ))) := by
  have hlat : sample_latent (R := ℚ) paramsFix 3 rngFix = some ⟨1, [0, 1, 1]⟩ := by
    norm_num [sample_latent, latent_loop, discrete_sample, cumFindIdx,
      latent_step_weights, sortedDedup, insortUniq, rngFix, paramsFix,
      List.replicate]
  exact ⟨by norm_num, hlat,
    sample_latent_labels_contiguous ℚ paramsFix 3 rngFix ⟨1, [0, 1, 1]⟩ (by norm_num)
      hlat⟩

/-- C1 (code_bug evidence): with the genuine `logBeta` (via `Real.Gamma`), at
observation `i = 2`, labels `c = [0, 1, 99]`, data `[[0], [1], [1]]`, prior
pseudo-count `beta = 1` and `dp_alpha = 1`, the weight vector the code computes
differs from the spec's formula: the loop overwrites the variable `beta` with
the first cluster's posterior `beta + #false`, so cluster `1`'s posterior
parameters become `(3, 2)` instead of the spec-mandated `(2, 1)` — the code's
second weight is `log B(4,2) - log B(3,2) = log(3/5)` where the claim requires
`log B(3,1) - log B(2,1) = log(2/3)`. -/
theorem sample_c_weights_use_mutated_beta :
    sample_c_weights (R := ℝ)
        ⟨fun q : ℚ => Real.log (q : ℝ),
         fun a b : ℚ => Real.log
           (Real.Gamma (a : ℝ) * Real.Gamma (b : ℝ) / Real.Gamma ((a : ℝ) + (b : ℝ))),
         fun a : ℚ => Real.log (Real.Gamma (a : ℝ)),
         fun _ _ _ => 0⟩
        2 [0, 1, 99] [[false], [true], [true]] 1 1 ≠
      sample_c_weights_spec (R := ℝ)
        ⟨fun q : ℚ => Real.log (q : ℝ),
         fun a b : ℚ => Real.log
           (Real.Gamma (a : ℝ) * Real.Gamma (b : ℝ) / Real.Gamma ((a : ℝ) + (b : ℝ))),
         fun a : ℚ => Real.log (Real.Gamma (a : ℝ)),
         fun _ _ _ => 0⟩
        2 [0, 1, 99] [[false], [true], [true]] 1 1 := by
  intro hEq
  have g2 : Real.Gamma (2 : ℝ) = 1 := by
    rw [(by norm_num : (2 : ℝ) = ((1 : ℕ) : ℝ) + 1), Real.Gamma_nat_eq_factorial]
    norm_num [Nat.factorial]
  have g3 : Real.Gamma (3 : ℝ) = 2 := by
    rw [(by norm_num : (3 : ℝ) = ((2 : ℕ) : ℝ) + 1), Real.Gamma_nat_eq_factorial]
    norm_num [Nat.factorial]
  have g4 : Real.Gamma (4 : ℝ) = 6 := by
    rw [(by norm_num : (4 : ℝ) = ((3 : ℕ) : ℝ) + 1), Real.Gamma_nat_eq_factorial]
    norm_num [Nat.factorial]
  have g5 : Real.Gamma (5 : ℝ) = 24 := by
    rw [(by norm_num : (5 : ℝ) = ((4 : ℕ) : ℝ) + 1), Real.Gamma_nat_eq_factorial]
    norm_num [Nat.factorial]
  have g6 : Real.Gamma (6 : ℝ) = 120 := by
    rw [(by norm_num : (6 : ℝ) = ((5 : ℕ) : ℝ) + 1), Real.Gamma_nat_eq_factorial]
    norm_num [Nat.factorial]
  have h1 := congrArg (fun l : List ℝ => l.getD 1 0) hEq
  norm_num [sample_c_weights, sample_c_weights_spec, clusterWeights, memberRows,
    countTrue, countFalse, dimSum, sortedDedup, insortUniq, List.range_succ,
    List.enum, List.enumFrom, List.filter_cons, List.filter_nil, List.countP_cons,
    List.countP_nil, List.zip, Real.Gamma_one, Nat.factorial, g2, g3, g4, g5,
    g6] at h1
  have e1 : Real.log (1 / 20 : ℝ) + Real.log (1 / 2) = Real.log (1 / 40) := by
    rw [← Real.log_mul (by norm_num) (by norm_num)]
    norm_num
  have e2 : Real.log (1 / 3 : ℝ) + Real.log (1 / 12) = Real.log (1 / 36) := by
    rw [← Real.log_mul (by norm_num) (by norm_num)]
    norm_num
  have hq : Real.log (1 / 40 : ℝ) = Real.log (1 / 36) := by linarith
  have hcontra := Real.log_injOn_pos (Set.mem_Ioi.mpr (by norm_num))
    (Set.mem_Ioi.mpr (by norm_num)) hq
  norm_num at hcontra
